import Mathlib

/-!
Verification of the deadline-bounded fan-out/fan-in aggregator of the ta-go
repository.  The repository keeps several historical revisions of the same
program side by side: `numbers.go` is the earliest revision, and `server.go`
holds the semaphore revision (its `validateAndFetch`/`fetch`) together with the
worker-pool revisions (`fetchAll`/`doWork`/`consume`).  The definitions below
are shallow embeddings translated from those Go functions.  Concurrency is
embedded by making the sequence of `select` outcomes observed by the consumer
loop explicit: each request run is parameterised by the list of channel events
(in arrival order) that the loop's `select` statement returns.  An exhausted
event list stands for a trace in which no further channel message ever arrives
before the deadline, so the next `select` can only return `ctx.Done()`.
-/

/-- Go struct `result` (`server.go` lines 24-26, `numbers.go` lines 15-17):
the decoded payload of one source, a slice of integers under the JSON key
`numbers`. -/
structure result where
  Numbers : List Int
deriving DecidableEq

/-- `sort.Ints` from the Go standard library: in-place ascending sort of an
int slice, embedded as a pure ascending sort. -/
def sortInts (l : List Int) : List Int :=
  List.insertionSort (fun a b => a ≤ b) l

/-- One outcome of the consumer loop's `select` statement
(`server.go` lines 101-125 and 301-317): a value arrived on the result
channel, an error arrived on the error channel, or `ctx.Done()` fired. -/
inductive Msg where
  | res (r : result)
  | err
  | done
deriving DecidableEq

/-- The consumer's local state (`server.go` lines 66-71 and 299-300):
the `accumulator` slice of accepted values and the `visited` set (a Go map
used as a set, embedded as the list of keys inserted so far). -/
structure consumeState where
  accumulator : List Int
  visited : List Int
deriving DecidableEq

/-- Both `server.go` consumer loops start from `make([]int, 0)` and an
empty map. -/
def initState : consumeState := ⟨[], []⟩

/-- The inner `for _, val := range res.Numbers` loop (`server.go`
lines 104-114 and 304-309): walk the received slice; a value already in
`visited` is skipped, otherwise it is appended to the accumulator and
inserted into `visited`. -/
def addVals : consumeState → List Int → consumeState
  | st, [] => st
  | st, val :: rest =>
      if val ∈ st.visited then addVals st rest
      else addVals ⟨st.accumulator ++ [val], val :: st.visited⟩ rest

/-- The consumer loop shared verbatim by `validateAndFetch` (`server.go`
lines 101-128) and `consume` (`server.go` lines 301-319): run `count`
iterations of the `select`; a result message is folded through `addVals`, an
error message is only logged, and `ctx.Done()` sorts the accumulator and
returns it at once, discarding everything that would arrive later.  Falling
out of the loop after `count` iterations also sorts and returns. -/
def aggregate : Nat → consumeState → List Msg → List Int
  | 0, st, _ => sortInts st.accumulator
  | _ + 1, st, [] => sortInts st.accumulator
  | n + 1, st, Msg.res r :: rest => aggregate n (addVals st r.Numbers) rest
  | n + 1, st, Msg.err :: rest => aggregate n st rest
  | _ + 1, st, Msg.done :: _ => sortInts st.accumulator

/-- `consume` (`server.go` lines 298-320): drain `count` terminal outcomes
from the channels, cutting off at the deadline. -/
def consume (count : Nat) (msgs : List Msg) : List Int :=
  aggregate count initState msgs

/-- Invariant of the consumer state: the accumulator holds no duplicates and
agrees with the `visited` membership set. -/
def InvSt (st : consumeState) : Prop :=
  st.accumulator.Nodup ∧ ∀ v : Int, v ∈ st.accumulator ↔ v ∈ st.visited

/-- The effect of one non-deadline `select` outcome on the consumer state:
a result message runs the dedup loop, an error message is only logged. -/
def stepMsg (st : consumeState) : Msg → consumeState
  | Msg.res r => addVals st r.Numbers
  | Msg.err => st
  | Msg.done => st

/-- The consumer state after processing a list of channel messages in
arrival order. -/
def processMsgs (st : consumeState) (msgs : List Msg) : consumeState :=
  msgs.foldl stepMsg st

/-- Instrumented consumer loop: identical control flow to `aggregate`, but
additionally reports how many terminal outcomes (successes plus failures)
the loop consumed and whether it reached DONE by normal completion (loop
counter exhausted) rather than by the deadline.  `aggregateR_fst` ties it to
the source-translated `aggregate`. -/
def aggregateR : Nat → consumeState → List Msg → List Int × Nat × Bool
  | 0, st, _ => (sortInts st.accumulator, 0, true)
  | _ + 1, st, [] => (sortInts st.accumulator, 0, false)
  | n + 1, st, Msg.res r :: rest =>
      let o := aggregateR n (addVals st r.Numbers) rest
      (o.1, o.2.1 + 1, o.2.2)
  | n + 1, st, Msg.err :: rest =>
      let o := aggregateR n st rest
      (o.1, o.2.1 + 1, o.2.2)
  | _ + 1, st, Msg.done :: _ => (sortInts st.accumulator, 0, false)

/-- ASCII control byte test used by `net/url` (`c < 0x20 || c == 0x7f`). -/
def isCtl (c : Char) : Bool := c.toNat < 0x20 || c.toNat == 0x7f

def isHexDig (c : Char) : Bool :=
  c.isDigit || (decide ('a' ≤ c) && decide (c ≤ 'f')) ||
    (decide ('A' ≤ c) && decide (c ≤ 'F'))

/-- Every `%` must introduce a two-hex-digit escape, as `net/url` demands. -/
def validEscapes : List Char → Bool
  | [] => true
  | c :: rest =>
      if c == '%' then
        match rest with
        | a :: b :: rest' => isHexDig a && isHexDig b && validEscapes rest'
        | _ => false
      else validEscapes rest

/-- Result of `getScheme` in `net/url`: an error, no scheme (the whole input
is the remainder), or a scheme followed by the remainder. -/
inductive SchemeRes where
  | bad
  | noScheme
  | scheme (rest : List Char)
deriving DecidableEq

/-- `getScheme` from `net/url`: scan for a scheme prefix; a letter keeps
scanning, a digit or `+`/`-`/`.` in first position means no scheme, a colon
in first position is an error, a colon later ends the scheme, and any other
character means the whole input is scheme-less. -/
def getSchemeGo : Bool → List Char → SchemeRes
  | _, [] => SchemeRes.noScheme
  | first, c :: rest =>
      if c.isAlpha then getSchemeGo false rest
      else if c.isDigit || c == '+' || c == '-' || c == '.' then
        if first then SchemeRes.noScheme else getSchemeGo false rest
      else if c == ':' then
        if first then SchemeRes.bad else SchemeRes.scheme rest
      else SchemeRes.noScheme

def firstSegment (cs : List Char) : List Char :=
  cs.takeWhile (fun c => !(c == '/'))

/-- Models the error behaviour of Go's `net/url.Parse` (standard library, an
external collaborator of the repository) on the fragment exercised here: a
URL string fails to parse when it contains an ASCII control byte, an invalid
percent-escape, a leading colon (`missing protocol scheme`), or — when no
scheme could be extracted — a colon inside the first path segment.  Host-name
validation of scheme-bearing URLs is beyond the fragment this development
evaluates.  Scheme-less printable strings (including the empty string) parse
successfully as path-only URLs. -/
def urlParseOk (s : String) : Bool :=
  s.data.all (fun c => !isCtl c) && validEscapes s.data &&
    (match getSchemeGo true s.data with
     | SchemeRes.bad => false
     | SchemeRes.scheme _ => true
     | SchemeRes.noScheme => !((firstSegment s.data).contains ':'))

/-- The validation loop of `validateAndFetch` (`server.go` lines 84-97):
each URL is kept exactly when `url.Parse` reports no error; `counter` counts
the kept URLs and one fetch goroutine is spawned per kept URL. -/
def validatedUrls (urls : List String) : List String :=
  urls.filter urlParseOk

/-- `validateAndFetch` (`server.go` lines 65-129): validate, spawn a fetch
per accepted URL, then drain `counter` outcomes through the consumer loop. -/
def validateAndFetch (urls : List String) (msgs : List Msg) : List Int :=
  aggregate (validatedUrls urls).length initState msgs

/-- Environment of one fetch attempt, making the external collaborators'
responses explicit: whether `http.NewRequest` fails, whether the round trip
fails at the transport level (which includes cancellation by the expired
deadline mid-flight), the response status code, whether JSON decoding fails,
and the decoded payload when everything succeeds. -/
structure FetchEnv where
  newRequestErr : Bool
  transportErr : Bool
  statusCode : Nat
  decodeErr : Bool
  body : result
deriving DecidableEq

/-- A terminal outcome handed over by a fetch worker: a `SourceResult` on
the result channel or a `SourceFailure` on the error channel (logged
directly in the `numbers.go` revision). -/
inductive Outcome where
  | res (r : result)
  | failure
deriving DecidableEq

/-- `fetch` (`server.go` lines 131-162): each early return emits exactly one
error-channel message; the fall-through emits the decoded result.  The
returned list is the ordered sequence of emissions of one call. -/
def fetchOutcomes (env : FetchEnv) : List Outcome :=
  if env.newRequestErr then [Outcome.failure]
  else if env.transportErr then [Outcome.failure]
  else if env.statusCode ≠ 200 then [Outcome.failure]
  else if env.decodeErr then [Outcome.failure]
  else [Outcome.res env.body]

/-- `fetch` from `numbers.go` lines 99-126: identical shape, but failures
are logged rather than sent on a channel, and the status check is
`res.StatusCode > http.StatusOK`, i.e. only codes above 200 are failures. -/
def numbersFetchOutcomes (env : FetchEnv) : List Outcome :=
  if env.newRequestErr then [Outcome.failure]
  else if env.transportErr then [Outcome.failure]
  else if 200 < env.statusCode then [Outcome.failure]
  else if env.decodeErr then [Outcome.failure]
  else [Outcome.res env.body]

/-- The HTTP 2xx success class. -/
def is2xx (s : Nat) : Bool := decide (200 ≤ s) && decide (s < 300)

/-- A Go `[]int` value distinguishing the nil slice from a non-nil slice:
`encoding/json` marshals the former as `null` and the latter as an array. -/
inductive GoIntSlice where
  | nil
  | mk (l : List Int)
deriving DecidableEq

/-- Go `append` on an int slice: appending to the nil slice allocates. -/
def goAppend : GoIntSlice → Int → GoIntSlice
  | GoIntSlice.nil, v => GoIntSlice.mk [v]
  | GoIntSlice.mk l, v => GoIntSlice.mk (l ++ [v])

/-- `sort.Ints` on a possibly-nil slice: sorting in place leaves a nil
slice nil. -/
def sortSlice : GoIntSlice → GoIntSlice
  | GoIntSlice.nil => GoIntSlice.nil
  | GoIntSlice.mk l => GoIntSlice.mk (sortInts l)

def encodeIntList : List Int → String
  | [] => ""
  | [v] => toString v
  | v :: rest => toString v ++ "," ++ encodeIntList rest

/-- `encoding/json` marshalling of a `[]int` value: the nil slice becomes
`null`, any non-nil slice becomes a JSON array. -/
def encodeGoIntSlice : GoIntSlice → String
  | GoIntSlice.nil => "null"
  | GoIntSlice.mk l => "[" ++ encodeIntList l ++ "]"

/-- `select` outcome of the `numbers.go` consumer loop (lines 72-93), which
has no error channel: a result arrived or `ctx.Done()` fired. -/
inductive MsgN where
  | res (r : result)
  | done
deriving DecidableEq

/-- `numbers.go` consumer state (lines 49-55): `var accumulator []int`
starts as the nil slice. -/
structure NState where
  accumulator : GoIntSlice
  visited : List Int
deriving DecidableEq

/-- The dedup loop of `numbers.go` lines 75-84, appending through Go
`append` on the possibly-nil accumulator. -/
def nAddVals : NState → List Int → NState
  | st, [] => st
  | st, val :: rest =>
      if val ∈ st.visited then nAddVals st rest
      else nAddVals ⟨goAppend st.accumulator val, val :: st.visited⟩ rest

/-- The `for range urls` drain loop of `numbers.go` lines 72-93: one
iteration per requested URL (validated or not), cutting off at the
deadline. -/
def nAggregate : Nat → NState → List MsgN → GoIntSlice
  | 0, st, _ => sortSlice st.accumulator
  | _ + 1, st, [] => sortSlice st.accumulator
  | n + 1, st, MsgN.res r :: rest => nAggregate n (nAddVals st r.Numbers) rest
  | _ + 1, st, MsgN.done :: _ => sortSlice st.accumulator

/-- `validateAndFetch` from `numbers.go` lines 49-97: spawn a fetch per URL
accepted by `url.Parse`, then loop once per requested URL (note: not per
validated URL) draining the single result channel. -/
def nValidateAndFetch (urls : List String) (msgs : List MsgN) : GoIntSlice :=
  nAggregate urls.length ⟨GoIntSlice.nil, []⟩ msgs

/-- A handler's observable response: either an early `WriteHeader` with a
plain-text body, or a JSON body whose `numbers` field carries the given
slice. -/
inductive HandlerResponse where
  | forbidden (status : Nat) (body : String)
  | ok (numbers : GoIntSlice)
deriving DecidableEq

/-- `numbersHandler` (`server.go` lines 36-63): reject any non-GET method
with 403 before anything else, answer `[]int{}` for an empty parameter
list, and otherwise run the aggregator pipeline. -/
def numbersHandler (method : String) (params : List String) (msgs : List Msg) :
    HandlerResponse :=
  if method ≠ "GET" then
    HandlerResponse.forbidden 403 "403 - Method not supported!"
  else if params.length = 0 then HandlerResponse.ok (GoIntSlice.mk [])
  else HandlerResponse.ok (GoIntSlice.mk (validateAndFetch params msgs))

/-- `numberHandler` (`numbers.go` lines 27-47): no method check at all; an
empty parameter list answers with the nil slice
(`map[string][]int{"numbers": nil}`), otherwise the aggregator pipeline
runs whatever the request method was. -/
def numberHandler (method : String) (params : List String) (msgs : List MsgN) :
    HandlerResponse :=
  if params.length = 0 then HandlerResponse.ok GoIntSlice.nil
  else HandlerResponse.ok (nValidateAndFetch params msgs)

/-- `doWork` (`server.go` lines 262-270): a pool worker repeatedly receives
from the work channel and fetches the received URL, returning as soon as it
receives the empty string.  The argument lists the values this worker
receives from the queue in order; after the producer closes the channel
every further receive yields the zero value `""`, so an exhausted list
stands for the closed and drained queue.  The value returned is the list of
URLs the worker actually fetched. -/
def doWork : List String → List String
  | [] => []
  | u :: rest => if u = "" then [] else u :: doWork rest

theorem initState_inv : InvSt initState := by
  constructor
  · exact List.nodup_nil
  · intro v; simp [initState]

theorem sortInts_perm (l : List Int) : List.Perm (sortInts l) l :=
  List.perm_insertionSort _ l

theorem sortInts_sorted (l : List Int) : (sortInts l).Sorted (fun a b => a ≤ b) :=
  List.sorted_insertionSort _ l

theorem sortInts_nodup {l : List Int} (h : l.Nodup) : (sortInts l).Nodup :=
  (List.Perm.nodup_iff (sortInts_perm l)).mpr h

theorem sortInts_mem {l : List Int} {v : Int} : v ∈ sortInts l ↔ v ∈ l :=
  List.Perm.mem_iff (sortInts_perm l)

theorem addVals_inv {st : consumeState} (h : InvSt st) (vals : List Int) :
    InvSt (addVals st vals) := by
  induction vals generalizing st with
  | nil => simpa [addVals] using h
  | cons v rest ih =>
      by_cases hv : v ∈ st.visited
      · simpa [addVals, hv] using ih h
      · have hnotacc : v ∉ st.accumulator := fun hmem => hv ((h.2 v).mp hmem)
        have h' : InvSt ⟨st.accumulator ++ [v], v :: st.visited⟩ := by
          constructor
          · simp [List.nodup_append, h.1, hnotacc]
          · intro w
            simp only [List.mem_append, List.mem_singleton, List.mem_cons]
            rw [h.2 w]
            tauto
        simpa [addVals, hv] using ih h'

theorem addVals_mem {st : consumeState} (h : InvSt st) (vals : List Int) (w : Int) :
    w ∈ (addVals st vals).accumulator ↔ w ∈ st.accumulator ∨ w ∈ vals := by
  induction vals generalizing st with
  | nil => simp [addVals]
  | cons v rest ih =>
      by_cases hv : v ∈ st.visited
      · have hacc : v ∈ st.accumulator := (h.2 v).mpr hv
        rw [show addVals st (v :: rest) = addVals st rest by simp [addVals, hv]]
        rw [ih h]
        simp only [List.mem_cons]
        constructor
        · rintro (hw | hw)
          · exact Or.inl hw
          · exact Or.inr (Or.inr hw)
        · rintro (hw | hw | hw)
          · exact Or.inl hw
          · exact Or.inl (hw ▸ hacc)
          · exact Or.inr hw
      · have h' : InvSt ⟨st.accumulator ++ [v], v :: st.visited⟩ := by
          constructor
          · have hnotacc : v ∉ st.accumulator := fun hmem => hv ((h.2 v).mp hmem)
            simp [List.nodup_append, h.1, hnotacc]
          · intro u
            simp only [List.mem_append, List.mem_singleton, List.mem_cons]
            rw [h.2 u]
            tauto
        rw [show addVals st (v :: rest) =
              addVals ⟨st.accumulator ++ [v], v :: st.visited⟩ rest by
            simp [addVals, hv]]
        rw [ih h']
        simp only [List.mem_append, List.mem_singleton, List.mem_cons]
        tauto

theorem aggregate_invariants :
    ∀ (n : Nat) (st : consumeState) (msgs : List Msg), InvSt st →
      (aggregate n st msgs).Nodup ∧
        (aggregate n st msgs).Sorted (fun a b : Int => a ≤ b)
  | 0, _, _, h => ⟨sortInts_nodup h.1, sortInts_sorted _⟩
  | _ + 1, _, [], h => ⟨sortInts_nodup h.1, sortInts_sorted _⟩
  | n + 1, st, Msg.res r :: rest, h => by
      simpa [aggregate] using
        aggregate_invariants n (addVals st r.Numbers) rest (addVals_inv h _)
  | n + 1, st, Msg.err :: rest, h => by
      simpa [aggregate] using aggregate_invariants n st rest h
  | _ + 1, _, Msg.done :: _, h => ⟨sortInts_nodup h.1, sortInts_sorted _⟩

theorem processMsgs_nil (st : consumeState) : processMsgs st [] = st := rfl

theorem processMsgs_cons (st : consumeState) (m : Msg) (rest : List Msg) :
    processMsgs st (m :: rest) = processMsgs (stepMsg st m) rest := rfl

theorem processMsgs_inv {st : consumeState} (h : InvSt st) (msgs : List Msg) :
    InvSt (processMsgs st msgs) := by
  induction msgs generalizing st with
  | nil => simpa [processMsgs] using h
  | cons m rest ih =>
      rw [processMsgs_cons]
      cases m with
      | res r => exact ih (addVals_inv h _)
      | err => exact ih h
      | done => exact ih h

/-- The deadline-fired branch of the consumer loop (`server.go` lines
119-124 and 312-316): if `ctx.Done()` fires after the messages `pre` but
before the loop counter reaches `count`, the loop returns the values
accumulated so far, sorted, and never looks at anything arriving later. -/
theorem aggregate_deadline :
    ∀ (count : Nat) (st : consumeState) (pre post : List Msg),
      Msg.done ∉ pre → pre.length < count →
      aggregate count st (pre ++ Msg.done :: post) =
        sortInts (processMsgs st pre).accumulator
  | 0, _, pre, _, _, h => absurd h (by omega)
  | n + 1, st, [], post, _, _ => by simp [aggregate, processMsgs]
  | n + 1, st, Msg.res r :: pre, post, hnd, hlen => by
      rw [show ((Msg.res r :: pre) ++ Msg.done :: post) =
            Msg.res r :: (pre ++ Msg.done :: post) by simp]
      rw [show aggregate (n + 1) st (Msg.res r :: (pre ++ Msg.done :: post)) =
            aggregate n (addVals st r.Numbers) (pre ++ Msg.done :: post) from rfl]
      rw [aggregate_deadline n (addVals st r.Numbers) pre post
            (fun hc => hnd (List.mem_cons_of_mem _ hc))
            (by simpa using Nat.lt_of_succ_lt_succ hlen)]
      rfl
  | n + 1, st, Msg.err :: pre, post, hnd, hlen => by
      rw [show ((Msg.err :: pre) ++ Msg.done :: post) =
            Msg.err :: (pre ++ Msg.done :: post) by simp]
      rw [show aggregate (n + 1) st (Msg.err :: (pre ++ Msg.done :: post)) =
            aggregate n st (pre ++ Msg.done :: post) from rfl]
      rw [aggregate_deadline n st pre post
            (fun hc => hnd (List.mem_cons_of_mem _ hc))
            (by simpa using Nat.lt_of_succ_lt_succ hlen)]
      rfl
  | _ + 1, _, Msg.done :: _, _, hnd, _ => absurd (List.mem_cons_self _ _) hnd

/-- C2: a deadline firing while the consumer is still collecting stops the
wait immediately — however many sources are outstanding — discards every
later-arriving worker message, and returns the values accumulated so far,
sorted, through the same normal return path as full completion. -/
theorem deadline_returns_accumulated_sorted (count : Nat) (pre post : List Msg)
    (hnd : Msg.done ∉ pre) (hlen : pre.length < count) :
    consume count (pre ++ Msg.done :: post) =
      sortInts (processMsgs initState pre).accumulator :=
  aggregate_deadline count initState pre post hnd hlen

/-- Witness for C2 at a concrete trace: one source answers with `[3, 1]`,
the deadline fires, and a late result `[2]` is discarded. -/
theorem deadline_returns_accumulated_sorted_inst :
    consume 3 [Msg.res ⟨[3, 1]⟩, Msg.done, Msg.res ⟨[2]⟩] =
      sortInts (processMsgs initState [Msg.res ⟨[3, 1]⟩]).accumulator :=
  deadline_returns_accumulated_sorted 3 [Msg.res ⟨[3, 1]⟩] [Msg.res ⟨[2]⟩]
    (by decide) (by decide)

theorem aggregateR_fst :
    ∀ (n : Nat) (st : consumeState) (msgs : List Msg),
      (aggregateR n st msgs).1 = aggregate n st msgs
  | 0, _, _ => rfl
  | _ + 1, _, [] => rfl
  | n + 1, st, Msg.res r :: rest => aggregateR_fst n (addVals st r.Numbers) rest
  | n + 1, st, Msg.err :: rest => aggregateR_fst n st rest
  | _ + 1, _, Msg.done :: _ => rfl

theorem aggregateR_settled_iff :
    ∀ (count : Nat) (st : consumeState) (msgs : List Msg),
      (aggregateR count st msgs).2.2 = true ↔
        (aggregateR count st msgs).2.1 = count
  | 0, _, _ => by simp [aggregateR]
  | _ + 1, _, [] => by simp [aggregateR]
  | n + 1, st, Msg.res r :: rest => by
      have ih := aggregateR_settled_iff n (addVals st r.Numbers) rest
      simp only [aggregateR]
      rw [ih]
      omega
  | n + 1, st, Msg.err :: rest => by
      have ih := aggregateR_settled_iff n st rest
      simp only [aggregateR]
      rw [ih]
      omega
  | _ + 1, _, Msg.done :: _ => by simp [aggregateR]

/-- C3: the consumer reaches DONE by normal completion exactly when the
number of terminal outcomes it consumed (successes plus failures) equals the
number of validated sources (`count`); a per-source failure advances the
loop counter exactly like a success while contributing no values to the
accumulator. -/
theorem normal_completion_iff_all_settled :
    (∀ (n : Nat) (st : consumeState) (msgs : List Msg),
        (aggregateR n st msgs).1 = aggregate n st msgs) ∧
      (∀ (count : Nat) (st : consumeState) (msgs : List Msg),
          (aggregateR count st msgs).2.2 = true ↔
            (aggregateR count st msgs).2.1 = count) ∧
      (∀ (n : Nat) (st : consumeState) (rest : List Msg),
          aggregate (n + 1) st (Msg.err :: rest) = aggregate n st rest ∧
            aggregateR (n + 1) st (Msg.err :: rest) =
              aggregateR (n + 1) st (Msg.res ⟨[]⟩ :: rest)) := by
  refine ⟨aggregateR_fst, aggregateR_settled_iff, ?_⟩
  intro n st rest
  constructor
  · rfl
  · simp [aggregateR, addVals]

theorem processMsgs_mem {st : consumeState} (h : InvSt st) (msgs : List Msg) (w : Int) :
    w ∈ (processMsgs st msgs).accumulator ↔
      w ∈ st.accumulator ∨ ∃ r : result, Msg.res r ∈ msgs ∧ w ∈ r.Numbers := by
  induction msgs generalizing st with
  | nil => simp [processMsgs]
  | cons m rest ih =>
      rw [processMsgs_cons]
      cases m with
      | res r =>
          rw [show stepMsg st (Msg.res r) = addVals st r.Numbers from rfl]
          rw [ih (addVals_inv h _)]
          rw [addVals_mem h]
          simp only [List.mem_cons]
          constructor
          · rintro ((hw | hw) | ⟨r', hr', hw⟩)
            · exact Or.inl hw
            · exact Or.inr ⟨r, Or.inl rfl, hw⟩
            · exact Or.inr ⟨r', Or.inr hr', hw⟩
          · rintro (hw | ⟨r', hr' | hr', hw⟩)
            · exact Or.inl (Or.inl hw)
            · exact Or.inl (Or.inr (by rw [Msg.res.injEq] at hr'; rwa [hr'] at hw))
            · exact Or.inr ⟨r', hr', hw⟩
      | err =>
          rw [show stepMsg st Msg.err = st from rfl]
          rw [ih h]
          simp only [List.mem_cons]
          constructor
          · rintro (hw | ⟨r', hr', hw⟩)
            · exact Or.inl hw
            · exact Or.inr ⟨r', Or.inr hr', hw⟩
          · rintro (hw | ⟨r', hr' | hr', hw⟩)
            · exact Or.inl hw
            · exact absurd hr' (by simp)
            · exact Or.inr ⟨r', hr', hw⟩
      | done =>
          rw [show stepMsg st Msg.done = st from rfl]
          rw [ih h]
          simp only [List.mem_cons]
          constructor
          · rintro (hw | ⟨r', hr', hw⟩)
            · exact Or.inl hw
            · exact Or.inr ⟨r', Or.inr hr', hw⟩
          · rintro (hw | ⟨r', hr' | hr', hw⟩)
            · exact Or.inl hw
            · exact absurd hr' (by simp)
            · exact Or.inr ⟨r', hr', hw⟩

/-- A run in which every message is a terminal outcome and the loop counter
covers them all processes the whole trace and falls out of the loop. -/
theorem aggregate_all :
    ∀ (n : Nat) (st : consumeState) (msgs : List Msg),
      Msg.done ∉ msgs → msgs.length ≤ n →
      aggregate n st msgs = sortInts (processMsgs st msgs).accumulator
  | 0, st, [], _, _ => by simp [aggregate, processMsgs]
  | 0, st, m :: rest, _, hlen => absurd hlen (by simp)
  | n + 1, st, [], _, _ => by simp [aggregate, processMsgs]
  | n + 1, st, Msg.res r :: rest, hnd, hlen => by
      rw [show aggregate (n + 1) st (Msg.res r :: rest) =
            aggregate n (addVals st r.Numbers) rest from rfl]
      rw [aggregate_all n (addVals st r.Numbers) rest
            (fun hc => hnd (List.mem_cons_of_mem _ hc)) (by simpa using hlen)]
      rfl
  | n + 1, st, Msg.err :: rest, hnd, hlen => by
      rw [show aggregate (n + 1) st (Msg.err :: rest) =
            aggregate n st rest from rfl]
      rw [aggregate_all n st rest
            (fun hc => hnd (List.mem_cons_of_mem _ hc)) (by simpa using hlen)]
      rfl
  | _ + 1, _, Msg.done :: _, hnd, _ => absurd (List.mem_cons_self _ _) hnd

/-- C4: replaying the same multiset of source responses through the
consumer in any other arrival order yields the same final sorted output
array. -/
theorem replay_order_invariance (msgs msgs' : List Msg)
    (hperm : List.Perm msgs msgs') (hnd : Msg.done ∉ msgs) :
    consume msgs.length msgs = consume msgs'.length msgs' := by
  have hnd' : Msg.done ∉ msgs' := fun hc => hnd (hperm.mem_iff.mpr hc)
  have h1 := aggregate_all msgs.length initState msgs hnd le_rfl
  have h2 := aggregate_all msgs'.length initState msgs' hnd' le_rfl
  rw [show consume msgs.length msgs = aggregate msgs.length initState msgs from rfl,
    show consume msgs'.length msgs' = aggregate msgs'.length initState msgs' from rfl,
    h1, h2]
  have hinv1 : InvSt (processMsgs initState msgs) := processMsgs_inv initState_inv msgs
  have hinv2 : InvSt (processMsgs initState msgs') := processMsgs_inv initState_inv msgs'
  have hmem : ∀ w : Int, w ∈ (processMsgs initState msgs).accumulator ↔
      w ∈ (processMsgs initState msgs').accumulator := by
    intro w
    rw [processMsgs_mem initState_inv msgs w, processMsgs_mem initState_inv msgs' w]
    constructor
    · rintro (hw | ⟨r, hr, hw⟩)
      · simp [initState] at hw
      · exact Or.inr ⟨r, hperm.mem_iff.mp hr, hw⟩
    · rintro (hw | ⟨r, hr, hw⟩)
      · simp [initState] at hw
      · exact Or.inr ⟨r, hperm.mem_iff.mpr hr, hw⟩
  have hp : List.Perm (processMsgs initState msgs).accumulator
      (processMsgs initState msgs').accumulator := by
    refine List.perm_of_nodup_nodup_toFinset_eq hinv1.1 hinv2.1 ?_
    ext w
    simpa using hmem w
  exact List.eq_of_perm_of_sorted
    (((sortInts_perm _).trans hp).trans (sortInts_perm _).symm)
    (sortInts_sorted _) (sortInts_sorted _)

/-- Witness for C4 at a concrete pair of traces: sources answering
`[2, 1]`, `[1, 3]` and one failure, replayed in reversed arrival order. -/
theorem replay_order_invariance_inst :
    consume 3 [Msg.res ⟨[2, 1]⟩, Msg.err, Msg.res ⟨[1, 3]⟩] =
      consume 3 [Msg.res ⟨[1, 3]⟩, Msg.err, Msg.res ⟨[2, 1]⟩] :=
  replay_order_invariance
    [Msg.res ⟨[2, 1]⟩, Msg.err, Msg.res ⟨[1, 3]⟩]
    [Msg.res ⟨[1, 3]⟩, Msg.err, Msg.res ⟨[2, 1]⟩]
    (by decide) (by decide)

/-- C1: for every request input — any list of sources and any arrival
pattern of per-source successes, failures and deadline cutoff — the integer
array returned by the aggregator (`consume`, and the full
`validateAndFetch` pipeline) contains no duplicate integers and is sorted
in ascending order. -/
theorem aggregator_output_nodup_sorted :
    (∀ (count : Nat) (msgs : List Msg),
        (consume count msgs).Nodup ∧
          (consume count msgs).Sorted (fun a b : Int => a ≤ b)) ∧
      ∀ (urls : List String) (msgs : List Msg),
        (validateAndFetch urls msgs).Nodup ∧
          (validateAndFetch urls msgs).Sorted (fun a b : Int => a ≤ b) := by
  constructor
  · intro count msgs
    exact aggregate_invariants count initState msgs initState_inv
  · intro urls msgs
    exact aggregate_invariants (validatedUrls urls).length initState msgs initState_inv

/-- C5: a fetch worker produces exactly one terminal outcome per call, and
it is exactly one of a source result or a source failure — never both,
never neither — in both the `server.go` worker (channel-reported failures)
and the `numbers.go` worker (logged failures).  A deadline expiring
mid-flight surfaces as a transport error and still yields exactly one
failure outcome. -/
theorem fetch_exactly_one_outcome :
    ∀ env : FetchEnv,
      (fetchOutcomes env).length = 1 ∧ (numbersFetchOutcomes env).length = 1 ∧
        (fetchOutcomes env = [Outcome.failure] ∨
          fetchOutcomes env = [Outcome.res env.body]) ∧
        (numbersFetchOutcomes env = [Outcome.failure] ∨
          numbersFetchOutcomes env = [Outcome.res env.body]) := by
  intro env
  unfold fetchOutcomes numbersFetchOutcomes
  refine ⟨?_, ?_, ?_, ?_⟩ <;> (repeat' split) <;> simp

/-- Counterexample to C6 as stated: the `numbers.go` fetch worker only
treats status codes above 200 as failures, so the non-2xx informational
status 100 with a decodable body emits a source result, not a failure. -/
theorem non2xx_fetch_emits_result_cex :
    is2xx 100 = false ∧
      numbersFetchOutcomes ⟨false, false, 100, false, ⟨[7]⟩⟩ =
        [Outcome.res ⟨[7]⟩] := by
  constructor <;> decide

/-- C6 amended: the `server.go` fetch worker treats every non-2xx status
(indeed every status other than 200) as a source failure; the `numbers.go`
worker treats only statuses above 200 as failures, so sub-200 non-2xx
statuses are not rejected there.  A failure message contributes no values
to the accumulator, so the request still completes with the other sources'
values. -/
theorem non2xx_failure_amended :
    (∀ env : FetchEnv, is2xx env.statusCode = false →
        fetchOutcomes env = [Outcome.failure]) ∧
      (∀ env : FetchEnv, 200 < env.statusCode →
          numbersFetchOutcomes env = [Outcome.failure]) ∧
      ∀ (n : Nat) (st : consumeState) (rest : List Msg),
        aggregate (n + 1) st (Msg.err :: rest) = aggregate n st rest := by
  refine ⟨?_, ?_, fun n st rest => rfl⟩
  · intro env h
    have h200 : env.statusCode ≠ 200 := by
      intro he
      rw [he] at h
      simp [is2xx] at h
    unfold fetchOutcomes
    by_cases h1 : env.newRequestErr <;> by_cases h2 : env.transportErr <;>
      simp [h1, h2, h200]
  · intro env h
    unfold numbersFetchOutcomes
    by_cases h1 : env.newRequestErr <;> by_cases h2 : env.transportErr <;>
      simp [h1, h2, h]

/-- Witness for the amended C6 at concrete statuses 404 and 503. -/
theorem non2xx_failure_amended_inst :
    fetchOutcomes ⟨false, false, 404, false, ⟨[]⟩⟩ = [Outcome.failure] ∧
      numbersFetchOutcomes ⟨false, false, 503, false, ⟨[]⟩⟩ = [Outcome.failure] :=
  ⟨non2xx_failure_amended.1 ⟨false, false, 404, false, ⟨[]⟩⟩ (by decide),
    non2xx_failure_amended.2.1 ⟨false, false, 503, false, ⟨[]⟩⟩ (by decide)⟩

/-- Counterexample to C7 as stated: the `numbers.go` handler answers an
empty source list by marshalling the nil slice, whose JSON encoding is
`null`, not the empty array `[]`. -/
theorem empty_sourcelist_null_cex :
    numberHandler "GET" [] [] = HandlerResponse.ok GoIntSlice.nil ∧
      encodeGoIntSlice GoIntSlice.nil = "null" ∧ "null" ≠ "[]" := by
  refine ⟨rfl, rfl, by decide⟩

/-- C7 amended: for an empty source list both handler revisions
short-circuit before the aggregator and answer at once, independently of
any worker traffic; `server.go` writes the non-nil empty slice, encoded as
the empty array `[]`, while the `numbers.go` revision writes the nil slice,
encoded as `null`. -/
theorem empty_sourcelist_amended :
    (∀ msgs : List Msg,
        numbersHandler "GET" [] msgs = HandlerResponse.ok (GoIntSlice.mk [])) ∧
      encodeGoIntSlice (GoIntSlice.mk []) = "[]" ∧
      (∀ msgs : List MsgN,
          numberHandler "GET" [] msgs = HandlerResponse.ok GoIntSlice.nil) ∧
      encodeGoIntSlice GoIntSlice.nil = "null" :=
  ⟨fun _ => rfl, rfl, fun _ => rfl, rfl⟩

/-- Counterexample to C8 as stated: a worker terminates on receiving any
empty-string work item, here with the real work item `"http://a"` still
sitting undrained behind it in the open queue (a worker that starts at that
item would fetch it). -/
theorem worker_empty_item_terminates_cex :
    doWork ["", "http://a"] = [] ∧ doWork ["http://a"] = ["http://a"] := by
  constructor <;> decide

/-- C8 amended: receiving the zero-value empty string is the worker's only
termination signal; it coincides with queue close exactly when no dispatched
work item is itself the empty string.  For a queue whose items are all
non-empty, the worker fetches every item and terminates only once the
queue is closed and drained. -/
theorem worker_drains_nonempty_queue (items : List String) (h : "" ∉ items) :
    doWork items = items := by
  induction items with
  | nil => rfl
  | cons u rest ih =>
      have hu : ¬(u = "") := fun he => h (he ▸ List.mem_cons_self _ _)
      simp [doWork, hu, ih (fun hc => h (List.mem_cons_of_mem _ hc))]

/-- Witness for the amended C8 on a concrete two-item queue. -/
theorem worker_drains_nonempty_queue_inst :
    doWork ["http://a", "http://b"] = ["http://a", "http://b"] :=
  worker_drains_nonempty_queue ["http://a", "http://b"] (by decide)

/-- Counterexample to C9 as stated: the `numbers.go` handler performs no
method check, so a POST request with a source parameter is processed by the
whole pipeline and answered 200 with aggregated numbers instead of being
rejected as forbidden. -/
theorem post_method_processed_cex :
    numberHandler "POST" ["http://a"] [MsgN.res ⟨[5]⟩] =
      HandlerResponse.ok (GoIntSlice.mk [5]) := by
  decide

/-- C9 amended: the `server.go` handler rejects every request whose method
is not GET with status 403 and the short plain-text body, without the
aggregator ever being entered (the response is the same whatever the query
parameters and worker traffic); the earlier `numbers.go` revision performs
no method check and processes any method. -/
theorem non_get_forbidden_amended (method : String) (h : method ≠ "GET") :
    ∀ (params : List String) (msgs : List Msg),
      numbersHandler method params msgs =
        HandlerResponse.forbidden 403 "403 - Method not supported!" := by
  intro params msgs
  simp [numbersHandler, h]

/-- Witness for the amended C9: a POST with a parameter and pending worker
traffic is still answered 403. -/
theorem non_get_forbidden_amended_inst :
    numbersHandler "POST" ["http://a"] [Msg.res ⟨[5]⟩] =
      HandlerResponse.forbidden 403 "403 - Method not supported!" :=
  non_get_forbidden_amended "POST" (by decide) ["http://a"] [Msg.res ⟨[5]⟩]

/-- The lowercase ASCII letters, used to state that the validator accepts
every scheme-less alphabetic string. -/
def lowerChars : List Char :=
  ['a', 'b', 'c', 'd', 'e', 'f', 'g', 'h', 'i', 'j', 'k', 'l', 'm',
    'n', 'o', 'p', 'q', 'r', 's', 't', 'u', 'v', 'w', 'x', 'y', 'z']

theorem validEscapes_no_percent :
    ∀ cs : List Char, (∀ c ∈ cs, (c == '%') = false) → validEscapes cs = true := by
  intro cs
  induction cs with
  | nil => intro _; rfl
  | cons c rest ih =>
      intro h
      have hc := h c (List.mem_cons_self _ _)
      rw [validEscapes.eq_def]
      simp only [hc, Bool.false_eq_true, if_false]
      exact ih (fun d hd => h d (List.mem_cons_of_mem _ hd))

theorem getSchemeGo_alpha :
    ∀ (cs : List Char) (b : Bool), (∀ c ∈ cs, c.isAlpha = true) →
      getSchemeGo b cs = SchemeRes.noScheme := by
  intro cs
  induction cs with
  | nil => intro b _; rfl
  | cons c rest ih =>
      intro b h
      have hc := h c (List.mem_cons_self _ _)
      rw [getSchemeGo.eq_def]
      simp only [hc, if_true]
      exact ih false (fun d hd => h d (List.mem_cons_of_mem _ hd))

theorem urlParseOk_lower (s : String) (h : ∀ c ∈ s.data, c ∈ lowerChars) :
    urlParseOk s = true := by
  have hprops : ∀ c ∈ lowerChars,
      isCtl c = false ∧ (c == '%') = false ∧ c.isAlpha = true ∧ ¬(c = ':') := by
    decide
  unfold urlParseOk
  have h1 : s.data.all (fun c => !isCtl c) = true := by
    rw [List.all_eq_true]
    intro c hc
    simp [(hprops c (h c hc)).1]
  have h2 : validEscapes s.data = true :=
    validEscapes_no_percent s.data (fun c hc => (hprops c (h c hc)).2.1)
  have h3 : getSchemeGo true s.data = SchemeRes.noScheme :=
    getSchemeGo_alpha s.data true (fun c hc => (hprops c (h c hc)).2.2.1)
  have h4 : ((firstSegment s.data).contains ':') = false := by
    by_contra hcon
    have hmem : ':' ∈ firstSegment s.data := by
      have hb := Bool.not_eq_false _ |>.mp hcon
      exact List.mem_of_elem_eq_true hb
    have hmem' : ':' ∈ s.data :=
      (List.takeWhile_sublist _).mem hmem
    exact (hprops ':' (h ':' hmem')).2.2.2 rfl
  rw [h1, h2, h3, h4]
  rfl

/-- C10: the source reference validator — the bare `url.Parse` error check —
accepts almost every string: the empty string and scheme-less strings such
as `"hello"` are accepted (as is every lowercase-alphabetic string), such
sources count toward the validated-source counter, and a network fetch is
spawned for each of them. -/
theorem validator_accepts_schemeless :
    (urlParseOk "" = true ∧ urlParseOk "hello" = true) ∧
      validatedUrls ["", "hello"] = ["", "hello"] ∧
      (validatedUrls ["", "hello"]).length = 2 ∧
      ∀ s : String, (∀ c ∈ s.data, c ∈ lowerChars) → urlParseOk s = true := by
  refine ⟨⟨by decide, by decide⟩, by decide, by decide, urlParseOk_lower⟩

/-- Witness for C10's universally quantified clause at the concrete
scheme-less source string `"zzz"`. -/
theorem validator_accepts_schemeless_inst : urlParseOk "zzz" = true :=
  validator_accepts_schemeless.2.2.2 "zzz" (by decide)
